import Mathlib

/-!
Verification of the arXiv harvester's ingestion and deduplication pipeline.

Strings from the Python source are modelled as `List Char`.  The SQLite
store is modelled as an explicit record of the three tables; SQLite
statement semantics (`INSERT OR REPLACE`, `INSERT OR IGNORE`, `DELETE`)
are spelled out as list operations.  Fallible Python code is modelled
with `Except` / `Option`.
-/

namespace ArxivHarvester

/-! ## Identifier derivation

Both `store/database.py` (`store_papers`, line 95) and
`scheduler/scheduler.py` (`filter_new_papers`, line 139) contain the
expression `full_id.split('/')[-1] if '/' in full_id else full_id`.
`splitOnSlash` models Python's `str.split('/')`: it always returns a
non-empty list of separator-free segments, with empty segments for
leading/trailing/adjacent separators. -/

def splitOnSlash : List Char → List (List Char)
  | [] => [[]]
  | c :: rest =>
    if c = '/' then [] :: splitOnSlash rest
    else
      match splitOnSlash rest with
      | [] => [[c]]
      | seg :: segs => (c :: seg) :: segs

/-- `full_id.split('/')[-1] if '/' in full_id else full_id` as written in
`store/database.py` line 95 (inside `store_papers`). -/
def shortIdStore (fullId : List Char) : List Char :=
  if '/' ∈ fullId then (splitOnSlash fullId).getLastD [] else fullId

/-- `full_id.split('/')[-1] if '/' in full_id else full_id` as written in
`scheduler/scheduler.py` line 139 (inside `filter_new_papers`). -/
def shortIdScheduler (fullId : List Char) : List Char :=
  if '/' ∈ fullId then (splitOnSlash fullId).getLastD [] else fullId

/-- Spec-side rendering of "the substring after the last `'/'` when the
full identifier contains a `'/'`, otherwise the full identifier itself". -/
def shortIdSpecRule (s : List Char) : List Char :=
  if '/' ∈ s then (s.reverse.takeWhile (fun c => c ≠ '/')).reverse else s

/-- Structural reformulation of "suffix after the last slash", convenient
for induction. -/
def lastSeg : List Char → List Char
  | [] => []
  | c :: rest =>
    if '/' ∈ rest then lastSeg rest
    else if c = '/' then rest else c :: rest

/-! ## Data model

`PaperDict` models the Python `dict` records handed to `store_papers`
and `filter_new_papers`: a key may be absent (`none`).  `PaperRow`
models a row of the `papers` table; `created_at`/`updated_at` are
server clock values outside the pure model and are omitted.  `DB`
models the three tables of the SQLite schema; `nextAuthorId` models the
`AUTOINCREMENT` counter of `authors.id`. -/

structure PaperDict where
  id : Option (List Char)
  title : Option (List Char)
  summary : Option (List Char)
  published_date : Option (List Char)
  pdf_url : Option (List Char)
  category : Option (List Char)
  authors : Option (List (List Char))
  deriving DecidableEq, Repr

structure PaperRow where
  id : List Char
  arxiv_id : List Char
  title : List Char
  summary : List Char
  published_date : List Char
  pdf_url : List Char
  category : Option (List Char)
  deriving DecidableEq, Repr

structure DB where
  papers : List PaperRow
  authors : List (Nat × List Char)
  paper_authors : List (List Char × Nat)
  nextAuthorId : Nat
  deriving DecidableEq, Repr

def DB.empty : DB := ⟨[], [], [], 0⟩

/-- `_insert_author`: `INSERT OR IGNORE INTO authors (name) VALUES (?)`
followed by `SELECT id FROM authors WHERE name = ?`. -/
def insertAuthor (db : DB) (name : List Char) : Nat × DB :=
  match db.authors.find? (fun a => a.2 = name) with
  | some a => (a.1, db)
  | none =>
    (db.nextAuthorId,
     { db with
        authors := db.authors ++ [(db.nextAuthorId, name)],
        nextAuthorId := db.nextAuthorId + 1 })

/-- One iteration of the author loop of `store_papers`:
`_insert_author` for the name, then
`INSERT OR IGNORE INTO paper_authors (paper_id, author_id)`. -/
def authorStep (fullId : List Char) (db : DB) (name : List Char) : DB :=
  if (fullId, (insertAuthor db name).1) ∈ (insertAuthor db name).2.paper_authors then
    (insertAuthor db name).2
  else
    { (insertAuthor db name).2 with
        paper_authors :=
          (insertAuthor db name).2.paper_authors ++ [(fullId, (insertAuthor db name).1)] }

/-- The author loop of `store_papers` over the record's author list. -/
def addAuthors (db : DB) (fullId : List Char) (names : List (List Char)) : DB :=
  names.foldl (authorStep fullId) db

/-- The row built by the `INSERT OR REPLACE INTO papers` statement of
`store_papers` (optional fields default to `''`, category to `NULL`). -/
def mkRow (p : PaperDict) (fullId title : List Char) : PaperRow :=
  { id := fullId,
    arxiv_id := shortIdStore fullId,
    title := title,
    summary := p.summary.getD [],
    published_date := p.published_date.getD [],
    pdf_url := p.pdf_url.getD [],
    category := p.category }

/-- One iteration of the `store_papers` loop body after validation:
`INSERT OR REPLACE` on the `papers` table (which, per SQLite, deletes
any row conflicting on the primary key `id` or the unique `arxiv_id`
before inserting), then — only when the record has a non-empty
`authors` list (`if 'authors' in paper and paper['authors']:`) —
`DELETE FROM paper_authors WHERE paper_id = ?` and the author loop. -/
def upsertOne (db : DB) (p : PaperDict) (fullId title : List Char) : DB :=
  let row := mkRow p fullId title
  let db1 : DB :=
    { db with
        papers :=
          db.papers.filter
            (fun r => ¬(r.id = fullId ∨ r.arxiv_id = row.arxiv_id)) ++ [row] }
  match p.authors with
  | some (n :: ns) =>
    let db2 : DB :=
      { db1 with paper_authors := db1.paper_authors.filter (fun pa => pa.1 ≠ fullId) }
    addAuthors db2 fullId (n :: ns)
  | _ => db1

/-- `store_papers`: sequential loop inside one transaction; a record
missing `id` or `title` raises `ValueError`.  The `Except` value is the
transaction outcome: `.ok` is the committed state, `.error` means the
exception escaped (and the transaction was rolled back). -/
def storePapers (db : DB) : List PaperDict → Except Unit DB
  | [] => Except.ok db
  | p :: ps =>
    match p.id, p.title with
    | some fullId, some title => storePapers (upsertOne db p fullId title) ps
    | _, _ => Except.error ()

/-- The observable effect of one `store_papers` call on the store: the
committed state, or — after `conn.rollback()` — the unchanged prior
state together with `false` (= the exception propagated). -/
def storePapersRun (db : DB) (ps : List PaperDict) : DB × Bool :=
  match storePapers db ps with
  | Except.ok db2 => (db2, true)
  | Except.error _ => (db, false)

/-- The literal characters of `"http://arxiv.org/abs/"`, the URL stem
`get_paper_by_id` and `delete_paper` prepend to the given id. -/
def urlStem : List Char := "http://arxiv.org/abs/".data

/-- `get_paper_by_id`: first `SELECT * FROM papers WHERE arxiv_id = ?`,
then, if no row, `SELECT * FROM papers WHERE id = ?` with
`f"http://arxiv.org/abs/{paper_id}"`. -/
def getPaperById (db : DB) (paperId : List Char) : Option PaperRow :=
  match db.papers.find? (fun r => r.arxiv_id = paperId) with
  | some r => some r
  | none => db.papers.find? (fun r => r.id = urlStem ++ paperId)

/-- `delete_paper`: resolve the full id via `arxiv_id` or the
reconstructed URL; if absent return `False`; otherwise delete the join
rows, delete the paper row, prune authors with no remaining join row,
and return `cursor.rowcount > 0` — the row count of the LAST executed
statement, which is the author-pruning `DELETE`. -/
def deletePaper (db : DB) (paperId : List Char) : DB × Bool :=
  let fullId? : Option (List Char) :=
    match db.papers.find? (fun r => r.arxiv_id = paperId) with
    | some r => some r.id
    | none =>
      if db.papers.any (fun r => r.id = urlStem ++ paperId) then
        some (urlStem ++ paperId)
      else none
  match fullId? with
  | none => (db, false)
  | some fullId =>
    let pa2 := db.paper_authors.filter (fun pa => pa.1 ≠ fullId)
    let papers2 := db.papers.filter (fun r => r.id ≠ fullId)
    let authors2 := db.authors.filter (fun a => pa2.any (fun pa => pa.2 = a.1))
    let prunedCount := db.authors.length - authors2.length
    ({ papers := papers2, authors := authors2, paper_authors := pa2,
       nextAuthorId := db.nextAuthorId },
     decide (0 < prunedCount))

/-! ## Scheduler -/

/-- `filter_new_papers`: for each paper, read `paper['id']` (a missing
key raises `KeyError`, modelled as `none`), derive the short id with
the same expression as the store, look it up with
`db_manager.get_paper_by_id`, and keep the paper when the lookup
returns `None`.  The loop appends kept papers in input order. -/
def filterNewPapers (db : DB) : List PaperDict → Option (List PaperDict)
  | [] => some []
  | p :: ps =>
    match p.id with
    | none => none
    | some fullId =>
      match filterNewPapers db ps with
      | none => none
      | some rest =>
        if (getPaperById db (shortIdScheduler fullId)).isSome then some rest
        else some (p :: rest)

/-- One `run_harvest` invocation, with the outcomes of the faultable
steps injected: `fetched` is what `fetch_papers` returns or the fault
it raises; `storeFault` / `notifyFault` say whether
`db_manager.store_papers` / the notifier raise when invoked.  `db` is
the store consulted by `filter_new_papers`. -/
structure HarvestEnv where
  db : DB
  fetched : Except Unit (List PaperDict)
  storeFault : Bool
  notifyFault : Bool
  deriving Repr

/-- `run_harvest`: the whole cycle body sits inside a single
`try: ... except Exception: return False`, so every step's fault is
converted to a `False` return; only a fault-free cycle returns `True`. -/
def runHarvest (env : HarvestEnv) : Bool :=
  match env.fetched with
  | Except.error _ => false
  | Except.ok papers =>
    match filterNewPapers env.db papers with
    | none => false
    | some newPapers =>
      if newPapers.isEmpty then true
      else if env.storeFault then false
      else if env.notifyFault then false
      else true

/-! ## Notifier (`notify/slack.py`) -/

/-- `self.max_message_length = 3000` set in `SlackNotifier.__init__`. -/
def maxMessageLength : Nat := 3000

/-- The characters appended by
`f"{truncated}... (message truncated)"`. -/
def truncationMarker : List Char := "... (message truncated)".data

/-- `truncate_message`: return the message unchanged when within the
limit, else keep the first `max_message_length - 25` characters and
append the marker. -/
def truncateMessage (message : List Char) : List Char :=
  if message.length ≤ maxMessageLength then message
  else message.take (maxMessageLength - 25) ++ truncationMarker

/-! ## Client rate limiter (`api/client.py`) -/

/-- The rate-limiter state of one `ArxivApiClient`: the configured
`delay` and the `last_request_time` field, `0.0` at construction. -/
structure ClientState where
  delay : ℚ
  last_request_time : ℚ
  deriving DecidableEq, Repr

def ClientState.fresh (delay : ℚ) : ClientState := ⟨delay, 0⟩

/-- `_enforce_rate_limit` at wall-clock instant `now`
(= `time.time()`): sleep the full `delay` when less than `delay` has
elapsed since `last_request_time` and a previous request is recorded
(`last_request_time > 0`); then store the post-sleep clock in
`last_request_time`.  Returns `(sleep duration, new state)`. -/
def enforceRateLimit (st : ClientState) (now : ℚ) : ℚ × ClientState :=
  let elapsed := now - st.last_request_time
  let sleepTime := if elapsed < st.delay ∧ 0 < st.last_request_time then st.delay else 0
  (sleepTime, { st with last_request_time := now + sleepTime })

/-! ## Derived views and well-formedness -/

/-- Number of `papers` rows with a given full identifier. -/
def countId (db : DB) (fid : List Char) : Nat :=
  (db.papers.filter (fun r => r.id = fid)).length

/-- The `author_id`s joined to a paper (the `paper_authors` rows with
`paper_id = fid`, in table order). -/
def assocIds (db : DB) (fid : List Char) : List Nat :=
  (db.paper_authors.filter (fun pa => pa.1 = fid)).map (fun pa => pa.2)

/-- `SELECT name FROM authors WHERE id = ?`. -/
def nameOf (db : DB) (aid : Nat) : Option (List Char) :=
  (db.authors.find? (fun a => a.1 = aid)).map (fun a => a.2)

/-- The author names associated to a paper through the join table. -/
def assocNames (db : DB) (fid : List Char) : List (List Char) :=
  (assocIds db fid).filterMap (nameOf db)

/-- Schema invariants of the `authors` / `paper_authors` tables:
`authors.name` is `UNIQUE`, `authors.id` is a key, and every stored id
is below the `AUTOINCREMENT` counter. -/
def wfAuthors (db : DB) : Prop :=
  (db.authors.map (fun a => a.2)).Nodup ∧
  (db.authors.map (fun a => a.1)).Nodup ∧
  (∀ a ∈ db.authors, a.1 < db.nextAuthorId) ∧
  (∀ pa ∈ db.paper_authors, pa.2 < db.nextAuthorId)

/-- Invariant of the `papers` table maintained by `store_papers`: the
`arxiv_id` column holds the derived short identifier, and is unique. -/
def wfPapers (db : DB) : Prop :=
  (∀ r ∈ db.papers, r.arxiv_id = shortIdStore r.id) ∧
  (db.papers.map (fun r => r.arxiv_id)).Nodup

/-- First-occurrence deduplication, the shape in which the rebuilt
author associations of a paper appear. -/
def dedupAcc (acc : List (List Char)) (names : List (List Char)) : List (List Char) :=
  names.foldl (fun acc n => if n ∈ acc then acc else acc ++ [n]) acc

/-! ## Concrete example records and states -/

def paperA : PaperDict :=
  { id := some ("http://arxiv.org/abs/1111.0001".data),
    title := some ("Paper One".data),
    summary := some ("first abstract".data),
    published_date := some ("2021-04-15T00:00:00Z".data),
    pdf_url := some ("http://arxiv.org/pdf/1111.0001".data),
    category := none,
    authors := some ["Alice".data] }

def paperB : PaperDict :=
  { id := some ("http://arxiv.org/abs/1111.0002".data),
    title := some ("Paper Two".data),
    summary := some ("second abstract".data),
    published_date := some ("2021-04-16T00:00:00Z".data),
    pdf_url := some ("http://arxiv.org/pdf/1111.0002".data),
    category := none,
    authors := some ["Alice".data] }

/-- A second version of `paperA`: same full identifier, new title, and
an empty incoming author list. -/
def paperA2 : PaperDict :=
  { id := some ("http://arxiv.org/abs/1111.0001".data),
    title := some ("Paper One v2".data),
    summary := some ("revised abstract".data),
    published_date := some ("2021-04-17T00:00:00Z".data),
    pdf_url := some ("http://arxiv.org/pdf/1111.0001v2".data),
    category := none,
    authors := some [] }

/-- A third version of `paperA`: same full identifier, author list
`["Bob"]` replacing `["Alice"]`. -/
def paperA3 : PaperDict :=
  { id := some ("http://arxiv.org/abs/1111.0001".data),
    title := some ("Paper One v3".data),
    summary := some ("third abstract".data),
    published_date := some ("2021-04-18T00:00:00Z".data),
    pdf_url := some ("http://arxiv.org/pdf/1111.0001v3".data),
    category := none,
    authors := some ["Bob".data] }

/-- A record with an `id` but no `title` key. -/
def paperNoTitle : PaperDict :=
  { id := some ("http://arxiv.org/abs/2104.12345".data),
    title := none, summary := none, published_date := none,
    pdf_url := none, category := none, authors := none }

/-- A fetched record whose short identifier is absent from every store
used in the examples. -/
def paperNew : PaperDict :=
  { id := some ("http://arxiv.org/abs/9999.0042".data),
    title := some ("Unseen".data),
    summary := some ("new abstract".data),
    published_date := some ("2021-05-01T00:00:00Z".data),
    pdf_url := none, category := none, authors := some [] }

/-- Store holding exactly `paperA`. -/
def dbA : DB := (storePapersRun DB.empty [paperA]).1

/-- Store holding `paperA` and `paperB` (they share the author
`Alice`). -/
def dbAB : DB := (storePapersRun DB.empty [paperA, paperB]).1

/-- `dbA` after re-ingesting the same paper with an empty author
list. -/
def dbA2 : DB := (storePapersRun dbA [paperA2]).1

/-- The `papers` row `store_papers` writes for `paperA`. -/
def rowA : PaperRow :=
  { id := "http://arxiv.org/abs/1111.0001".data,
    arxiv_id := "1111.0001".data,
    title := "Paper One".data,
    summary := "first abstract".data,
    published_date := "2021-04-15T00:00:00Z".data,
    pdf_url := "http://arxiv.org/pdf/1111.0001".data,
    category := none }

/-- A harvest run in which fetch succeeds with one genuinely new paper
and the store upsert raises. -/
def envStoreFault : HarvestEnv :=
  { db := DB.empty, fetched := Except.ok [paperNew],
    storeFault := true, notifyFault := false }

/-! ## Lemmas on identifier derivation -/

theorem splitOnSlash_ne_nil (s : List Char) : splitOnSlash s ≠ [] := by
  cases s with
  | nil => simp [splitOnSlash]
  | cons c rest =>
    simp only [splitOnSlash]
    split
    · simp
    · split <;> simp

theorem splitOnSlash_no_slash (s : List Char) (h : '/' ∉ s) :
    splitOnSlash s = [s] := by
  induction s with
  | nil => rfl
  | cons c rest ih =>
    simp only [List.mem_cons, not_or] at h
    simp only [splitOnSlash]
    rw [if_neg (fun hc => h.1 hc.symm), ih h.2]

theorem lastSeg_no_slash (s : List Char) (h : '/' ∉ s) : lastSeg s = s := by
  induction s with
  | nil => rfl
  | cons c rest ih =>
    simp only [List.mem_cons, not_or] at h
    simp only [lastSeg]
    rw [if_neg h.2, if_neg (fun hc => h.1 hc.symm)]

theorem splitOnSlash_length_of_slash (s : List Char) (h : '/' ∈ s) :
    2 ≤ (splitOnSlash s).length := by
  induction s with
  | nil => cases h
  | cons c rest ih =>
    simp only [splitOnSlash]
    by_cases hc : c = '/'
    · rw [if_pos hc]
      have h1 : 1 ≤ (splitOnSlash rest).length :=
        List.length_pos.mpr (splitOnSlash_ne_nil rest)
      simpa using h1
    · rw [if_neg hc]
      have hm : '/' ∈ rest := by
        rcases List.mem_cons.mp h with h' | h'
        · exact absurd h'.symm hc
        · exact h'
      rcases hx : splitOnSlash rest with _ | ⟨t, ts⟩
      · exact absurd hx (splitOnSlash_ne_nil rest)
      · have := ih hm
        rw [hx] at this
        simpa using this

theorem getLastD_splitOnSlash (s : List Char) :
    (splitOnSlash s).getLastD [] = lastSeg s := by
  induction s with
  | nil => rfl
  | cons c rest ih =>
    simp only [splitOnSlash, lastSeg]
    by_cases hc : c = '/'
    · rw [if_pos hc, if_pos hc, List.getLastD_cons]
      by_cases hm : '/' ∈ rest
      · rw [if_pos hm]
        exact ih
      · rw [if_neg hm, splitOnSlash_no_slash rest hm]
        rfl
    · rw [if_neg hc, if_neg hc]
      rcases hx : splitOnSlash rest with _ | ⟨t, ts⟩
      · exact absurd hx (splitOnSlash_ne_nil rest)
      · rw [hx] at ih
        by_cases hm : '/' ∈ rest
        · rw [if_pos hm]
          cases ts with
          | nil =>
            have h2 := splitOnSlash_length_of_slash rest hm
            rw [hx] at h2
            simp at h2
          | cons u us =>
            rw [List.getLastD_cons, List.getLastD_cons] at ih ⊢
            exact ih
        · rw [if_neg hm]
          rw [splitOnSlash_no_slash rest hm] at hx
          cases hx
          simp

theorem takeWhile_append_of_all {p : Char → Bool} (xs ys : List Char)
    (h : ∀ x ∈ xs, p x = true) :
    (xs ++ ys).takeWhile p = xs ++ ys.takeWhile p := by
  induction xs with
  | nil => simp
  | cons x xs ih =>
    have hx := h x (List.mem_cons_self x xs)
    have ih' := ih (fun y hy => h y (List.mem_cons_of_mem x hy))
    simp [List.takeWhile_cons, hx, ih']

theorem takeWhile_append_of_not_all {p : Char → Bool} (xs ys : List Char)
    (h : ¬ ∀ x ∈ xs, p x = true) :
    (xs ++ ys).takeWhile p = xs.takeWhile p := by
  induction xs with
  | nil => exact absurd (by simp) h
  | cons x xs ih =>
    by_cases hx : p x = true
    · have htail : ¬ ∀ y ∈ xs, p y = true := fun hall => h (by
        intro y hy
        rcases List.mem_cons.mp hy with h' | h'
        · rw [h']; exact hx
        · exact hall y h')
      simp [List.takeWhile_cons, hx, ih htail]
    · have hx' : p x = false := by rwa [Bool.not_eq_true] at hx
      simp [List.takeWhile_cons, hx']

theorem lastSeg_eq_reverse_takeWhile (s : List Char) :
    lastSeg s = (s.reverse.takeWhile (fun c => c ≠ '/')).reverse := by
  induction s with
  | nil => rfl
  | cons c rest ih =>
    simp only [lastSeg, List.reverse_cons]
    by_cases hm : '/' ∈ rest
    · rw [if_pos hm, takeWhile_append_of_not_all, ih]
      intro hall
      have := hall '/' (List.mem_reverse.mpr hm)
      simp at this
    · rw [if_neg hm]
      have hall : ∀ x ∈ rest.reverse, (fun c => decide (c ≠ '/')) x = true := by
        intro x hx
        have hx' : x ∈ rest := List.mem_reverse.mp hx
        simp only [decide_eq_true_eq]
        intro h
        exact hm (h ▸ hx')
      rw [takeWhile_append_of_all _ _ hall]
      by_cases hc : c = '/'
      · rw [if_pos hc]
        subst hc
        simp [List.takeWhile_cons]
      · rw [if_neg hc]
        simp only [List.takeWhile_cons, decide_eq_true_eq]
        rw [if_pos hc]
        simp

theorem shortIdStore_eq_lastSeg (s : List Char) (h : '/' ∈ s) :
    shortIdStore s = lastSeg s := by
  rw [shortIdStore, if_pos h, getLastD_splitOnSlash]

theorem slash_not_mem_lastSeg (s : List Char) : '/' ∉ lastSeg s := by
  induction s with
  | nil => simp [lastSeg]
  | cons c rest ih =>
    simp only [lastSeg]
    by_cases hm : '/' ∈ rest
    · rw [if_pos hm]; exact ih
    · rw [if_neg hm]
      by_cases hc : c = '/'
      · rw [if_pos hc]; exact hm
      · rw [if_neg hc]
        simp only [List.mem_cons, not_or]
        exact ⟨fun h => hc h.symm, hm⟩

theorem slash_not_mem_shortIdStore (s : List Char) (h : '/' ∈ s) :
    '/' ∉ shortIdStore s := by
  rw [shortIdStore_eq_lastSeg s h]
  exact slash_not_mem_lastSeg s

theorem lastSeg_append_slash (a b : List Char) (hb : '/' ∉ b) :
    lastSeg (a ++ '/' :: b) = b := by
  induction a with
  | nil =>
    simp only [List.nil_append, lastSeg]
    rw [if_neg hb]
    simp
  | cons c a ih =>
    simp only [List.cons_append, lastSeg]
    rw [if_pos (by simp)]
    exact ih

/-! ## Generic list lemmas -/

theorem find?_key_eq {α β : Type} [DecidableEq β] (key : α → β) :
    ∀ (l : List α) (a : α), a ∈ l → (l.map key).Nodup →
      l.find? (fun x => key x = key a) = some a
  | [], a, ha, _ => absurd ha (List.not_mem_nil a)
  | x :: xs, a, ha, hnd => by
    rcases List.mem_cons.mp ha with rfl | hmem
    · exact List.find?_cons_of_pos _ (by simp)
    · rw [List.map_cons] at hnd
      have hnd' := List.nodup_cons.mp hnd
      have hne : key x ≠ key a := by
        intro he
        exact hnd'.1 (he ▸ List.mem_map_of_mem key hmem)
      rw [List.find?_cons_of_neg _ (by simpa using hne)]
      exact find?_key_eq key xs a hmem hnd'.2

theorem find?_eq_none_of_forall {α : Type} (p : α → Bool) (l : List α)
    (h : ∀ x ∈ l, p x = false) : l.find? p = none :=
  List.find?_eq_none.mpr (fun x hx => by simp [h x hx])

/-! ## The `papers` table after one upsert -/

theorem insertAuthor_papers (db : DB) (n : List Char) :
    (insertAuthor db n).2.papers = db.papers := by
  rcases h : db.authors.find? (fun a => a.2 = n) with _ | a <;> simp [insertAuthor, h]

theorem authorStep_papers (fid : List Char) (db : DB) (n : List Char) :
    (authorStep fid db n).papers = db.papers := by
  rw [authorStep]
  split <;> simp [insertAuthor_papers]

theorem addAuthors_papers (fid : List Char) :
    ∀ (names : List (List Char)) (db : DB),
      (addAuthors db fid names).papers = db.papers
  | [], db => rfl
  | n :: ns, db => by
    show (addAuthors (authorStep fid db n) fid ns).papers = db.papers
    rw [addAuthors_papers fid ns, authorStep_papers]

theorem upsertOne_papers (db : DB) (p : PaperDict) (fid t : List Char) :
    (upsertOne db p fid t).papers =
      db.papers.filter (fun r => ¬(r.id = fid ∨ r.arxiv_id = shortIdStore fid)) ++
        [mkRow p fid t] := by
  rw [upsertOne]
  rcases hpa : p.authors with _ | ns
  · simp [mkRow]
  · cases ns with
    | nil => simp [mkRow]
    | cons n ns => simp [addAuthors_papers, mkRow]

theorem filter_id_upsertOne (db : DB) (p : PaperDict) (fid t : List Char) :
    (upsertOne db p fid t).papers.filter (fun r => r.id = fid) = [mkRow p fid t] := by
  rw [upsertOne_papers, List.filter_append]
  have h1 : (db.papers.filter
      (fun r => ¬(r.id = fid ∨ r.arxiv_id = shortIdStore fid))).filter
        (fun r => r.id = fid) = [] := by
    rw [List.filter_eq_nil_iff]
    intro r hr
    have h2 := (List.mem_filter.mp hr).2
    rw [decide_eq_true_eq, not_or] at h2
    simp [h2.1]
  rw [h1, List.nil_append]
  simp [mkRow]

theorem countId_upsertOne (db : DB) (p : PaperDict) (fid t : List Char) :
    countId (upsertOne db p fid t) fid = 1 := by
  rw [countId, filter_id_upsertOne]
  rfl

/-! ## `store_papers` loop lemmas -/

theorem storePapers_cons_valid (db : DB) (p : PaperDict) (ps : List PaperDict)
    (fid t : List Char) (hid : p.id = some fid) (ht : p.title = some t) :
    storePapers db (p :: ps) = storePapers (upsertOne db p fid t) ps := by
  simp [storePapers, hid, ht]

theorem storePapers_count_aux (fid : List Char) :
    ∀ (ps : List PaperDict) (db : DB),
      (∀ q ∈ ps, q.id = some fid ∧ q.title.isSome) →
      countId db fid = 1 →
      ∃ db2, storePapers db ps = Except.ok db2 ∧ countId db2 fid = 1
  | [], db, _, h1 => ⟨db, rfl, h1⟩
  | q :: qs, db, hall, h1 => by
    obtain ⟨hq1, hq2⟩ := hall q (List.mem_cons_self q qs)
    obtain ⟨t, ht⟩ := Option.isSome_iff_exists.mp hq2
    rw [storePapers_cons_valid db q qs fid t hq1 ht]
    exact storePapers_count_aux fid qs (upsertOne db q fid t)
      (fun x hx => hall x (List.mem_cons_of_mem q hx))
      (countId_upsertOne db q fid t)

theorem storePapers_error_of_invalid :
    ∀ (ps : List PaperDict) (db : DB),
      (∃ p ∈ ps, p.id = none ∨ p.title = none) →
      storePapers db ps = Except.error ()
  | [], _, h => by simp at h
  | q :: qs, db, h => by
    rcases h with ⟨p, hp, hbad⟩
    rcases List.mem_cons.mp hp with rfl | hmem
    · rcases hbad with h1 | h1
      · simp [storePapers, h1]
      · cases hqid : p.id <;> simp [storePapers, hqid, h1]
    · cases hqid : q.id with
      | none => simp [storePapers, hqid]
      | some fid =>
        cases hqt : q.title with
        | none => simp [storePapers, hqid, hqt]
        | some t =>
          rw [storePapers_cons_valid db q qs fid t hqid hqt]
          exact storePapers_error_of_invalid qs _ ⟨p, hmem, hbad⟩

/-! ## Claim theorems -/

/-- C1: upserting a record whose full identifier already has a row
replaces that row's fields with the record's values and leaves exactly
one row with that identifier; any non-empty sequence of upserts of
records sharing one full identifier leaves exactly one such row. -/
theorem upsert_same_id_single_row (db : DB) (p : PaperDict) (fid t : List Char)
    (hid : p.id = some fid) (ht : p.title = some t)
    (hex : ∃ r ∈ db.papers, r.id = fid) :
    (∃ db2, storePapers db [p] = Except.ok db2 ∧
      db2.papers.filter (fun r => r.id = fid) = [mkRow p fid t]) ∧
    (∀ ps : List PaperDict, ps ≠ [] →
      (∀ q ∈ ps, q.id = some fid ∧ q.title.isSome) →
      ∃ db2, storePapers db ps = Except.ok db2 ∧ countId db2 fid = 1) := by
  constructor
  · refine ⟨upsertOne db p fid t, ?_, filter_id_upsertOne db p fid t⟩
    rw [storePapers_cons_valid db p [] fid t hid ht]
    rfl
  · intro ps hne hall
    cases ps with
    | nil => exact absurd rfl hne
    | cons q qs =>
      obtain ⟨hq1, hq2⟩ := hall q (List.mem_cons_self q qs)
      obtain ⟨t2, ht2⟩ := Option.isSome_iff_exists.mp hq2
      rw [storePapers_cons_valid db q qs fid t2 hq1 ht2]
      exact storePapers_count_aux fid qs (upsertOne db q fid t2)
        (fun x hx => hall x (List.mem_cons_of_mem q hx))
        (countId_upsertOne db q fid t2)

/-- Witness for C1 at concrete inputs: `dbA` already holds `paperA`'s
row; upserting `paperA2` (same full identifier) yields exactly one row
carrying `paperA2`'s values, and the two-record sequence
`[paperA2, paperA]` also leaves exactly one row. -/
theorem upsert_same_id_single_row_witness :
    (∃ db2, storePapers dbA [paperA2] = Except.ok db2 ∧
      db2.papers.filter
        (fun r => r.id = "http://arxiv.org/abs/1111.0001".data) =
        [mkRow paperA2 ("http://arxiv.org/abs/1111.0001".data) "Paper One v2".data]) ∧
    (∃ db2, storePapers dbA [paperA2, paperA] = Except.ok db2 ∧
      countId db2 ("http://arxiv.org/abs/1111.0001".data) = 1) := by
  have h := upsert_same_id_single_row dbA paperA2
    "http://arxiv.org/abs/1111.0001".data ("Paper One v2".data)
    (by decide) (by decide) (by decide)
  exact ⟨h.1, h.2 [paperA2, paperA] (by decide) (by decide)⟩

/-- C2: a batch containing a record that lacks an identifier or a title
makes `store_papers` raise `ValidationError`, and the observable store
state after the call is exactly the state before it. -/
theorem store_invalid_batch_rolls_back (db : DB) (ps : List PaperDict)
    (h : ∃ p ∈ ps, p.id = none ∨ p.title = none) :
    storePapers db ps = Except.error () ∧ storePapersRun db ps = (db, false) := by
  have herr := storePapers_error_of_invalid ps db h
  exact ⟨herr, by rw [storePapersRun, herr]⟩

/-- Witness for C2: against a store already holding `paperA`, a batch
whose first record (`paperB`) is valid and whose second lacks `title`
raises and leaves the store exactly as it was. -/
theorem store_invalid_batch_rolls_back_witness :
    storePapers dbA [paperB, paperNoTitle] = Except.error () ∧
    storePapersRun dbA [paperB, paperNoTitle] = (dbA, false) :=
  store_invalid_batch_rolls_back dbA [paperB, paperNoTitle]
    ⟨paperNoTitle, by decide, Or.inr (by decide)⟩

/-- C10: the scheduler's and the store's short-identifier derivations
are the same function, and that function implements the rule "the
substring after the last `'/'` when the full identifier contains a
`'/'`, otherwise the full identifier itself". -/
theorem short_id_derivations_agree :
    (∀ s : List Char, shortIdScheduler s = shortIdStore s) ∧
    (∀ s : List Char, shortIdStore s = shortIdSpecRule s) := by
  refine ⟨fun s => rfl, fun s => ?_⟩
  by_cases h : '/' ∈ s
  · rw [shortIdStore_eq_lastSeg s h, shortIdSpecRule, if_pos h,
      lastSeg_eq_reverse_takeWhile]
  · rw [shortIdStore, shortIdSpecRule, if_neg h, if_neg h]

/-- C8: `truncate_message` returns a message within the configured
maximum unchanged; for a longer message the output stays within the
maximum and ends with the truncation marker. -/
theorem truncate_message_law (m : List Char) :
    (m.length ≤ maxMessageLength → truncateMessage m = m) ∧
    (maxMessageLength < m.length →
      (truncateMessage m).length ≤ maxMessageLength ∧
      ∃ kept, truncateMessage m = kept ++ truncationMarker) := by
  constructor
  · intro h
    rw [truncateMessage, if_pos h]
  · intro h
    rw [truncateMessage, if_neg (not_le.mpr h)]
    refine ⟨?_, _, rfl⟩
    have hmark : truncationMarker.length = 23 := by decide
    rw [List.length_append, List.length_take, hmark]
    simp only [maxMessageLength]
    omega

/-- Witness for C8: a short message passes through unchanged; a message
of 3001 characters is truncated within the limit and ends with the
marker. -/
theorem truncate_message_law_witness :
    truncateMessage ("hello".data) = "hello".data ∧
    ((truncateMessage (List.replicate 3001 'a')).length ≤ maxMessageLength ∧
      ∃ kept, truncateMessage (List.replicate 3001 'a') = kept ++ truncationMarker) :=
  ⟨(truncate_message_law ("hello".data)).1 (by decide),
   (truncate_message_law (List.replicate 3001 'a')).2
     (by rw [List.length_replicate]; norm_num [maxMessageLength])⟩

/-- C9: the rate limiter sleeps nothing on a freshly constructed
client; on a later request issued less than `delay` after the previous
one it sleeps exactly the full `delay`; and in every case two recorded
consecutive requests end up separated by at least `delay`. -/
theorem enforce_rate_limit_spec :
    (∀ (delay now : ℚ), (enforceRateLimit (ClientState.fresh delay) now).1 = 0) ∧
    (∀ (st : ClientState) (now : ℚ),
      0 < st.last_request_time →
      now - st.last_request_time < st.delay →
      (enforceRateLimit st now).1 = st.delay) ∧
    (∀ (st : ClientState) (now : ℚ),
      0 < st.last_request_time → st.last_request_time ≤ now →
      st.delay ≤
        (enforceRateLimit st now).2.last_request_time - st.last_request_time) := by
  refine ⟨fun delay now => ?_, fun st now h0 hlt => ?_, fun st now h0 hle => ?_⟩
  · rw [enforceRateLimit]
    simp [ClientState.fresh]
  · rw [enforceRateLimit]
    simp only
    rw [if_pos ⟨hlt, h0⟩]
  · rw [enforceRateLimit]
    simp only
    by_cases hc : now - st.last_request_time < st.delay ∧ 0 < st.last_request_time
    · rw [if_pos hc]
      linarith
    · rw [if_neg hc]
      have hge : st.delay ≤ now - st.last_request_time := by
        by_contra hlt
        exact hc ⟨lt_of_not_le hlt, h0⟩
      simp only [add_zero]
      linarith

/-- Witness for C9 at `delay = 3`, previous request at `t = 10`,
current call at `t = 11`: the fresh client sleeps `0`, the rushed call
sleeps the full `3`, and the recorded separation is at least `3`. -/
theorem enforce_rate_limit_spec_witness :
    (enforceRateLimit (ClientState.fresh 3) 5).1 = 0 ∧
    (enforceRateLimit ⟨3, 10⟩ 11).1 = 3 ∧
    (3 : ℚ) ≤ (enforceRateLimit ⟨3, 10⟩ 11).2.last_request_time - 10 := by
  refine ⟨enforce_rate_limit_spec.1 3 5,
    enforce_rate_limit_spec.2.1 ⟨3, 10⟩ 11 (by norm_num) (by norm_num), ?_⟩
  exact enforce_rate_limit_spec.2.2 ⟨3, 10⟩ 11 (by norm_num) (by norm_num)

/-- C7 (amended): `run_harvest` absorbs EVERY fault raised inside the
cycle — fetch, store and notify alike — converting it to a `false`
return; only a fault-free cycle returns `true`.  (The claim as stated,
that store/notify faults propagate out, is refuted by
`run_harvest_store_fault_counterexample`.) -/
theorem run_harvest_absorbs_all_faults (env : HarvestEnv) :
    (env.fetched = Except.error () → runHarvest env = false) ∧
    (∀ papers newPapers, env.fetched = Except.ok papers →
      filterNewPapers env.db papers = some newPapers → newPapers ≠ [] →
      env.storeFault = true → runHarvest env = false) ∧
    (∀ papers newPapers, env.fetched = Except.ok papers →
      filterNewPapers env.db papers = some newPapers → newPapers ≠ [] →
      env.storeFault = false → env.notifyFault = true → runHarvest env = false) ∧
    (∀ papers newPapers, env.fetched = Except.ok papers →
      filterNewPapers env.db papers = some newPapers →
      env.storeFault = false → env.notifyFault = false → runHarvest env = true) := by
  refine ⟨fun hf => ?_, fun papers newPapers hf hfilt hne hs => ?_,
    fun papers newPapers hf hfilt hne hs hn => ?_,
    fun papers newPapers hf hfilt hs hn => ?_⟩
  · rw [runHarvest, hf]
  · rw [runHarvest, hf]
    simp only [hfilt, hs]
    rw [if_neg (by simpa [List.isEmpty_iff] using hne)]
    simp
  · rw [runHarvest, hf]
    simp only [hfilt, hs, hn]
    rw [if_neg (by simpa [List.isEmpty_iff] using hne)]
    simp
  · rw [runHarvest, hf]
    simp only [hfilt, hs, hn]
    split <;> simp

/-- Witness for the amended C7: a fetch fault yields `false`; a
fault-free run over an empty store with one new paper yields `true`. -/
theorem run_harvest_absorbs_all_faults_witness :
    runHarvest ⟨DB.empty, Except.error (), false, false⟩ = false ∧
    runHarvest ⟨DB.empty, Except.ok [paperNew], false, false⟩ = true := by
  constructor
  · exact (run_harvest_absorbs_all_faults ⟨DB.empty, Except.error (), false, false⟩).1 rfl
  · exact (run_harvest_absorbs_all_faults
      ⟨DB.empty, Except.ok [paperNew], false, false⟩).2.2.2
      [paperNew] [paperNew] rfl (by decide) rfl rfl

/-- Counterexample to C7 as stated: in `envStoreFault` the fetch step
succeeds with one genuinely new paper and the store upsert raises, yet
`run_harvest` returns the boolean `false` — the fault is converted,
not propagated (the embedded `runHarvest` is a total `Bool`-valued
function: no fault ever escapes it). -/
theorem run_harvest_store_fault_counterexample :
    envStoreFault.storeFault = true ∧
    envStoreFault.fetched = Except.ok [paperNew] ∧
    filterNewPapers envStoreFault.db [paperNew] = some [paperNew] ∧
    runHarvest envStoreFault = false :=
  ⟨rfl, rfl, rfl, rfl⟩

/-! ## Lookup characterization -/

theorem slash_not_mem_shortIdStore_all (s : List Char) :
    '/' ∉ shortIdStore s := by
  by_cases h : '/' ∈ s
  · exact slash_not_mem_shortIdStore s h
  · rw [shortIdStore, if_neg h]
    exact h

theorem shortIdStore_urlStem_append (pid : List Char) (hnp : '/' ∉ pid) :
    shortIdStore (urlStem ++ pid) = pid := by
  have hmem : '/' ∈ urlStem ++ pid :=
    List.mem_append_left pid (by decide)
  rw [shortIdStore_eq_lastSeg _ hmem]
  have hsplit : urlStem ++ pid = "http://arxiv.org/abs".data ++ '/' :: pid := rfl
  rw [hsplit]
  exact lastSeg_append_slash _ pid hnp

theorem getPaperById_eq_none_iff (db : DB) (pid : List Char)
    (hwf : ∀ r ∈ db.papers, r.arxiv_id = shortIdStore r.id) (hnp : '/' ∉ pid) :
    getPaperById db pid = none ↔ ∀ r ∈ db.papers, r.arxiv_id ≠ pid := by
  constructor
  · intro h r hr hne
    rw [getPaperById] at h
    cases h1 : db.papers.find? (fun x => x.arxiv_id = pid) with
    | some r2 => rw [h1] at h; cases h
    | none =>
      have h2 := List.find?_eq_none.mp h1 r hr
      rw [decide_eq_true_eq] at h2
      exact h2 hne
  · intro hall
    rw [getPaperById]
    have h1 : db.papers.find? (fun x => x.arxiv_id = pid) = none :=
      find?_eq_none_of_forall _ _ (fun r hr => by
        simp only [decide_eq_false_iff_not]
        exact hall r hr)
    rw [h1]
    apply find?_eq_none_of_forall
    intro r hr
    simp only [decide_eq_false_iff_not]
    intro hid
    have harx := hwf r hr
    rw [hid, shortIdStore_urlStem_append pid hnp] at harx
    exact hall r hr harx

theorem filterNewPapers_eq :
    ∀ (ps : List PaperDict) (db : DB), (∀ p ∈ ps, p.id.isSome) →
      filterNewPapers db ps =
        some (ps.filter
          (fun p => (getPaperById db (shortIdScheduler (p.id.getD []))).isNone))
  | [], _, _ => rfl
  | p :: ps, db, hids => by
    obtain ⟨fid, hfid⟩ := Option.isSome_iff_exists.mp (hids p (List.mem_cons_self p ps))
    have ih := filterNewPapers_eq ps db (fun q hq => hids q (List.mem_cons_of_mem p hq))
    rw [List.filter_cons]
    cases hg : getPaperById db (shortIdScheduler fid) with
    | some r => simp [filterNewPapers, hfid, ih, hg]
    | none => simp [filterNewPapers, hfid, ih, hg]

/-- C3: `filter_new_papers` returns exactly the order-preserving
sublist of the input whose derived short identifier is absent from the
store; under the `arxiv_id` column invariant, "absent" means no
`papers` row carries that short identifier. -/
theorem filter_new_papers_dedup (db : DB) (ps : List PaperDict)
    (hwf : ∀ r ∈ db.papers, r.arxiv_id = shortIdStore r.id)
    (hids : ∀ p ∈ ps, p.id.isSome) :
    filterNewPapers db ps =
      some (ps.filter
        (fun p => (getPaperById db (shortIdScheduler (p.id.getD []))).isNone)) ∧
    ∀ p ∈ ps,
      ((getPaperById db (shortIdScheduler (p.id.getD []))).isNone = true ↔
        ∀ r ∈ db.papers, r.arxiv_id ≠ shortIdScheduler (p.id.getD [])) := by
  refine ⟨filterNewPapers_eq ps db hids, fun p _ => ?_⟩
  rw [Option.isNone_iff_eq_none]
  exact getPaperById_eq_none_iff db _ hwf
    (slash_not_mem_shortIdStore_all (p.id.getD []))

/-- Witness for C3: against a store holding `paperA`, the fetched list
`[paperA, paperNew]` filters to exactly `[paperNew]`, in input order. -/
theorem filter_new_papers_dedup_witness :
    filterNewPapers dbA [paperA, paperNew] = some [paperNew] := by
  have h := (filter_new_papers_dedup dbA [paperA, paperNew]
    (by decide) (by decide)).1
  rw [h]
  decide

/-- C4 (amended): lookup by the SHORT identifier returns the stored
record; lookup by the FULL identifier returns that record only when the
full identifier contains no `'/'` (so it coincides with the short
form); when the full identifier contains a `'/'` — the URL form — the
lookup returns `None` (unless some row's id happens to equal
`"http://arxiv.org/abs/" ++` the queried full identifier).  The claim
that the full URL form resolves is refuted by
`get_paper_by_id_full_form_counterexample`. -/
theorem get_paper_by_id_amended (db : DB) (r : PaperRow)
    (hwf : ∀ x ∈ db.papers, x.arxiv_id = shortIdStore x.id)
    (hnd : (db.papers.map (fun x => x.arxiv_id)).Nodup)
    (hr : r ∈ db.papers) :
    getPaperById db r.arxiv_id = some r ∧
    ('/' ∉ r.id → getPaperById db r.id = some r) ∧
    ('/' ∈ r.id → (∀ x ∈ db.papers, x.id ≠ urlStem ++ r.id) →
      getPaperById db r.id = none) := by
  have h1 : db.papers.find? (fun x => x.arxiv_id = r.arxiv_id) = some r :=
    find?_key_eq (fun x => x.arxiv_id) db.papers r hr hnd
  refine ⟨?_, ?_, ?_⟩
  · rw [getPaperById, h1]
  · intro hns
    have he : r.arxiv_id = r.id := by
      rw [hwf r hr, shortIdStore, if_neg hns]
    rw [← he, getPaperById, h1]
  · intro hs hnone
    rw [getPaperById]
    have h2 : db.papers.find? (fun x => x.arxiv_id = r.id) = none := by
      apply find?_eq_none_of_forall
      intro x hx
      simp only [decide_eq_false_iff_not]
      intro he
      have hx2 := hwf x hx
      rw [he] at hx2
      rw [hx2] at hs
      exact slash_not_mem_shortIdStore_all x.id hs
    rw [h2]
    apply find?_eq_none_of_forall
    intro x hx
    simp only [decide_eq_false_iff_not]
    exact hnone x hx

/-- Witness for the amended C4 at the concrete store `dbA`: the short
form resolves to `paperA`'s row, the full URL form does not. -/
theorem get_paper_by_id_amended_witness :
    getPaperById dbA rowA.arxiv_id = some rowA ∧
    getPaperById dbA rowA.id = none := by
  have h := get_paper_by_id_amended dbA rowA (by decide) (by decide) (by decide)
  exact ⟨h.1, h.2.2 (by decide) (by decide)⟩

/-- Counterexample to C4 as stated: `dbA` stores the paper whose full
identifier is the URL `http://arxiv.org/abs/1111.0001`; lookup by the
short identifier returns the row, but lookup by that full identifier
returns `None` — the two forms do NOT both resolve. -/
theorem get_paper_by_id_full_form_counterexample :
    rowA ∈ dbA.papers ∧
    rowA.id = "http://arxiv.org/abs/1111.0001".data ∧
    getPaperById dbA ("1111.0001".data) = some rowA ∧
    getPaperById dbA ("http://arxiv.org/abs/1111.0001".data) = none := by decide

/-- C6 evaluated at the failing input: in `dbAB` the papers share the
author `Alice`.  Deleting the first paper finds and removes its row
(and its join row), retains `Alice` (still referenced by the second
paper, so the pruning `DELETE` removes zero author rows) — and
therefore returns `False`, because the code returns
`cursor.rowcount > 0` of that LAST statement instead of whether the
paper row was found.  This contradicts the claim (and the function's
own docstring: "True if the paper was deleted, False if not found"). -/
theorem delete_paper_return_value_bug :
    dbAB.papers.any (fun r => r.arxiv_id = "1111.0001".data) = true ∧
    (deletePaper dbAB ("1111.0001".data)).1.papers.any
      (fun r => r.arxiv_id = "1111.0001".data) = false ∧
    (deletePaper dbAB ("1111.0001".data)).1.authors.any
      (fun a => a.2 = "Alice".data) = true ∧
    (deletePaper dbAB ("1111.0001".data)).2 = false := by decide

/-! ## Author-table lemmas (for the association rebuild) -/

theorem find?_append_some {α : Type} (p : α → Bool) (l1 l2 : List α) (a : α)
    (h : l1.find? p = some a) : (l1 ++ l2).find? p = some a := by
  induction l1 with
  | nil => cases h
  | cons x xs ih =>
    cases hx : p x with
    | true =>
      rw [List.find?_cons_of_pos _ hx] at h
      rw [List.cons_append, List.find?_cons_of_pos _ hx]
      exact h
    | false =>
      rw [List.find?_cons_of_neg _ (by simp [hx])] at h
      rw [List.cons_append, List.find?_cons_of_neg _ (by simp [hx])]
      exact ih h

theorem find?_append_none {α : Type} (p : α → Bool) (l1 l2 : List α)
    (h : l1.find? p = none) : (l1 ++ l2).find? p = l2.find? p := by
  induction l1 with
  | nil => rfl
  | cons x xs ih =>
    cases hx : p x with
    | true =>
      rw [List.find?_cons_of_pos _ hx] at h
      cases h
    | false =>
      rw [List.find?_cons_of_neg _ (by simp [hx])] at h
      rw [List.cons_append, List.find?_cons_of_neg _ (by simp [hx])]
      exact ih h

theorem filterMap_congr_mem {α β : Type} (f g : α → Option β) :
    ∀ (l : List α), (∀ x ∈ l, f x = g x) → l.filterMap f = l.filterMap g
  | [], _ => rfl
  | x :: xs, h => by
    rw [List.filterMap_cons, List.filterMap_cons,
      h x (List.mem_cons_self x xs),
      filterMap_congr_mem f g xs (fun y hy => h y (List.mem_cons_of_mem x hy))]

theorem nodup_map_mem_inj {α β : Type} (f : α → β) :
    ∀ (l : List α) (a b : α), (l.map f).Nodup → a ∈ l → b ∈ l → f a = f b → a = b
  | [], a, _, _, ha, _, _ => absurd ha (List.not_mem_nil a)
  | x :: xs, a, b, hnd, ha, hb, hf => by
    rw [List.map_cons, List.nodup_cons] at hnd
    rcases List.mem_cons.mp ha with rfl | ha2
    · rcases List.mem_cons.mp hb with rfl | hb2
      · rfl
      · exact absurd (hf ▸ List.mem_map_of_mem f hb2) hnd.1
    · rcases List.mem_cons.mp hb with rfl | hb2
      · exact absurd (hf ▸ List.mem_map_of_mem f ha2) hnd.1
      · exact nodup_map_mem_inj f xs a b hnd.2 ha2 hb2 hf

theorem mem_dedupAcc (m : List Char) :
    ∀ (names : List (List Char)) (acc : List (List Char)),
      m ∈ dedupAcc acc names ↔ m ∈ acc ∨ m ∈ names
  | [], acc => by simp [dedupAcc]
  | n :: ns, acc => by
    have step : dedupAcc acc (n :: ns) =
        dedupAcc (if n ∈ acc then acc else acc ++ [n]) ns := rfl
    rw [step, mem_dedupAcc m ns]
    by_cases hn : n ∈ acc
    · rw [if_pos hn]
      constructor
      · rintro (h | h)
        · exact Or.inl h
        · exact Or.inr (List.mem_cons_of_mem n h)
      · rintro (h | h)
        · exact Or.inl h
        · rcases List.mem_cons.mp h with rfl | h2
          · exact Or.inl hn
          · exact Or.inr h2
    · rw [if_neg hn]
      constructor
      · rintro (h | h)
        · rcases List.mem_append.mp h with h2 | h2
          · exact Or.inl h2
          · rcases List.mem_singleton.mp h2 with rfl
            exact Or.inr (List.mem_cons_self m ns)
        · exact Or.inr (List.mem_cons_of_mem n h)
      · rintro (h | h)
        · exact Or.inl (List.mem_append_left _ h)
        · rcases List.mem_cons.mp h with rfl | h2
          · exact Or.inl (List.mem_append_right _ (List.mem_singleton_self m))
          · exact Or.inr h2

theorem nodup_dedupAcc :
    ∀ (names : List (List Char)) (acc : List (List Char)),
      acc.Nodup → (dedupAcc acc names).Nodup
  | [], _, h => h
  | n :: ns, acc, h => by
    have step : dedupAcc acc (n :: ns) =
        dedupAcc (if n ∈ acc then acc else acc ++ [n]) ns := rfl
    rw [step]
    apply nodup_dedupAcc ns
    by_cases hn : n ∈ acc
    · rwa [if_pos hn]
    · rw [if_neg hn]
      exact List.Nodup.append h (List.nodup_singleton n)
        (List.disjoint_singleton.mpr hn)

theorem insertAuthor_pa (db : DB) (n : List Char) :
    (insertAuthor db n).2.paper_authors = db.paper_authors := by
  rcases h : db.authors.find? (fun a => a.2 = n) with _ | a <;> simp [insertAuthor, h]

theorem insertAuthor_nextId_le (db : DB) (n : List Char) :
    db.nextAuthorId ≤ (insertAuthor db n).2.nextAuthorId := by
  rcases h : db.authors.find? (fun a => a.2 = n) with _ | a <;>
    simp [insertAuthor, h]

theorem insertAuthor_id_lt (db : DB) (n : List Char) (hwf : wfAuthors db) :
    (insertAuthor db n).1 < (insertAuthor db n).2.nextAuthorId := by
  rcases h : db.authors.find? (fun a => a.2 = n) with _ | a
  · simp [insertAuthor, h]
  · have ha := List.mem_of_find?_eq_some h
    simpa [insertAuthor, h] using hwf.2.2.1 a ha

theorem insertAuthor_wf (db : DB) (n : List Char) (hwf : wfAuthors db) :
    wfAuthors (insertAuthor db n).2 := by
  rcases h : db.authors.find? (fun a => a.2 = n) with _ | a
  · have hfresh : ∀ a ∈ db.authors, a.2 ≠ n := by
      intro a ha he
      have := List.find?_eq_none.mp h a ha
      rw [decide_eq_true_eq] at this
      exact this he
    have hidfresh : ∀ a ∈ db.authors, a.1 ≠ db.nextAuthorId := by
      intro a ha he
      exact absurd (he ▸ hwf.2.2.1 a ha) (lt_irrefl _)
    refine ⟨?_, ?_, ?_, ?_⟩
    · simp only [insertAuthor, h, List.map_append]
      apply List.Nodup.append hwf.1 (by simp)
      intro x hx hy
      rcases List.mem_map.mp hx with ⟨a, ha, rfl⟩
      have he : a.2 = n := List.mem_singleton.mp (by simpa using hy)
      exact hfresh a ha he
    · simp only [insertAuthor, h, List.map_append]
      apply List.Nodup.append hwf.2.1 (by simp)
      intro x hx hy
      rcases List.mem_map.mp hx with ⟨a, ha, rfl⟩
      have he : a.1 = db.nextAuthorId := List.mem_singleton.mp (by simpa using hy)
      exact hidfresh a ha he
    · intro a ha
      simp only [insertAuthor, h] at ha ⊢
      rcases List.mem_append.mp ha with h2 | h2
      · exact Nat.lt_succ_of_lt (hwf.2.2.1 a h2)
      · rcases List.mem_singleton.mp h2 with rfl
        exact Nat.lt_succ_self _
    · intro pa hpa
      simp only [insertAuthor, h] at hpa ⊢
      exact Nat.lt_succ_of_lt (hwf.2.2.2 pa hpa)
  · simpa [insertAuthor, h] using hwf

theorem insertAuthor_nameOf_self (db : DB) (n : List Char) (hwf : wfAuthors db) :
    nameOf (insertAuthor db n).2 (insertAuthor db n).1 = some n := by
  rcases h : db.authors.find? (fun a => a.2 = n) with _ | a
  · have hidfresh : db.authors.find? (fun a => a.1 = db.nextAuthorId) = none := by
      apply find?_eq_none_of_forall
      intro a ha
      simp only [decide_eq_false_iff_not]
      intro he
      exact absurd (he ▸ hwf.2.2.1 a ha) (lt_irrefl _)
    simp only [insertAuthor, h, nameOf]
    rw [find?_append_none _ _ _ hidfresh]
    simp
  · have hmem := List.mem_of_find?_eq_some h
    have hpred := List.find?_some h
    rw [decide_eq_true_eq] at hpred
    have hfind : db.authors.find? (fun x => x.1 = a.1) = some a :=
      find?_key_eq (fun x => x.1) db.authors a hmem hwf.2.1
    simp only [insertAuthor, h, nameOf, hfind]
    simp [hpred]

theorem insertAuthor_nameOf_lt (db : DB) (n : List Char) (b : Nat)
    (hb : b < db.nextAuthorId) :
    nameOf (insertAuthor db n).2 b = nameOf db b := by
  rcases h : db.authors.find? (fun a => a.2 = n) with _ | a
  · simp only [insertAuthor, h, nameOf]
    cases hf : db.authors.find? (fun x => x.1 = b) with
    | some a2 => rw [find?_append_some _ _ _ _ hf]
    | none =>
      rw [find?_append_none _ _ _ hf]
      have : ¬((db.nextAuthorId, n).1 = b) := by
        simp only
        intro he
        exact absurd (he ▸ hb) (lt_irrefl _)
      rw [List.find?_cons_of_neg _ (by simpa using this)]
      rfl
  · simp [insertAuthor, h]

theorem mem_assocIds_iff (db : DB) (fid : List Char) (b : Nat) :
    b ∈ assocIds db fid ↔ (fid, b) ∈ db.paper_authors := by
  rw [assocIds]
  constructor
  · intro h
    rcases List.mem_map.mp h with ⟨pa, hpa, rfl⟩
    have h2 := List.mem_filter.mp hpa
    have h3 : pa.1 = fid := by
      have := h2.2
      rwa [decide_eq_true_eq] at this
    have : pa = (fid, pa.2) := by
      rw [← h3]
    rw [← this]
    exact h2.1
  · intro h
    apply List.mem_map.mpr
    refine ⟨(fid, b), List.mem_filter.mpr ⟨h, by simp⟩, rfl⟩

theorem mem_assocIds_lt (db : DB) (fid : List Char) (b : Nat)
    (hwf : wfAuthors db) (h : b ∈ assocIds db fid) : b < db.nextAuthorId :=
  hwf.2.2.2 (fid, b) ((mem_assocIds_iff db fid b).mp h)

theorem nameOf_mem (db : DB) (b : Nat) (m : List Char)
    (h : nameOf db b = some m) : (b, m) ∈ db.authors := by
  rw [nameOf] at h
  cases hf : db.authors.find? (fun x => x.1 = b) with
  | none => rw [hf] at h; cases h
  | some a =>
    rw [hf] at h
    have hmem := List.mem_of_find?_eq_some hf
    have hpred := List.find?_some hf
    rw [decide_eq_true_eq] at hpred
    have hm : a.2 = m := by
      simpa using h
    have : a = (b, m) := by
      rw [← hpred, ← hm]
    rw [← this]
    exact hmem

theorem mem_assocNames_iff (db : DB) (fid : List Char) (m : List Char) :
    m ∈ assocNames db fid ↔
      ∃ b, (fid, b) ∈ db.paper_authors ∧ nameOf db b = some m := by
  rw [assocNames]
  constructor
  · intro h
    rcases List.mem_filterMap.mp h with ⟨b, hb, hnm⟩
    exact ⟨b, (mem_assocIds_iff db fid b).mp hb, hnm⟩
  · rintro ⟨b, hb, hnm⟩
    exact List.mem_filterMap.mpr ⟨b, (mem_assocIds_iff db fid b).mpr hb, hnm⟩

theorem assocNames_insertAuthor (db : DB) (n : List Char) (fid : List Char)
    (hwf : wfAuthors db) :
    assocNames (insertAuthor db n).2 fid = assocNames db fid := by
  rw [assocNames, assocNames, assocIds, assocIds, insertAuthor_pa]
  apply filterMap_congr_mem
  intro b hb
  rcases List.mem_map.mp hb with ⟨pa, hpa, rfl⟩
  have hpam := (List.mem_filter.mp hpa).1
  exact insertAuthor_nameOf_lt db n pa.2 (hwf.2.2.2 pa hpam)

/-- Effect of one author-loop iteration on the paper's association
names: append the name when it is not yet associated, otherwise leave
them unchanged. -/
theorem authorStep_assocNames (db : DB) (fid n : List Char)
    (hwf : wfAuthors db) :
    wfAuthors (authorStep fid db n) ∧
    assocNames (authorStep fid db n) fid =
      assocNames db fid ++ (if n ∈ assocNames db fid then [] else [n]) := by
  have wfI := insertAuthor_wf db n hwf
  have paI := insertAuthor_pa db n
  have nameSelf := insertAuthor_nameOf_self db n hwf
  have aidLt := insertAuthor_id_lt db n hwf
  have namesI := assocNames_insertAuthor db n fid hwf
  rw [authorStep]
  by_cases hmem :
      (fid, (insertAuthor db n).1) ∈ (insertAuthor db n).2.paper_authors
  · rw [if_pos hmem]
    have hmem0 : (fid, (insertAuthor db n).1) ∈ db.paper_authors := paI ▸ hmem
    have haidlt : (insertAuthor db n).1 < db.nextAuthorId :=
      hwf.2.2.2 _ hmem0
    have hnmem : n ∈ assocNames db fid := by
      apply (mem_assocNames_iff db fid n).mpr
      refine ⟨(insertAuthor db n).1, hmem0, ?_⟩
      rw [← insertAuthor_nameOf_lt db n _ haidlt]
      exact nameSelf
    rw [if_pos hnmem, List.append_nil]
    exact ⟨wfI, namesI⟩
  · rw [if_neg hmem]
    set aid := (insertAuthor db n).1 with haid
    set dbI := (insertAuthor db n).2 with hdbI
    have hnmem : n ∉ assocNames db fid := by
      intro hn
      rcases (mem_assocNames_iff db fid n).mp hn with ⟨b, hb, hnb⟩
      have hblt : b < db.nextAuthorId := hwf.2.2.2 _ hb
      have hbmem : (b, n) ∈ db.authors := nameOf_mem db b n hnb
      have hbeq : b = aid := by
        rcases hfa : db.authors.find? (fun a => a.2 = n) with _ | a
        · have := List.find?_eq_none.mp hfa (b, n) hbmem
          rw [decide_eq_true_eq] at this
          exact absurd rfl this
        · have hamem := List.mem_of_find?_eq_some hfa
          have hapred := List.find?_some hfa
          rw [decide_eq_true_eq] at hapred
          have : (b, n) = a :=
            nodup_map_mem_inj (fun x => x.2) db.authors (b, n) a hwf.1
              hbmem hamem (by simpa using hapred.symm)
          have haid2 : aid = a.1 := by
            rw [haid, insertAuthor, hfa]
          rw [haid2, ← this]
        -- done
      rw [hbeq] at hb
      exact hmem (paI ▸ hb)
    rw [if_neg hnmem]
    constructor
    · -- wf of the record with the appended join row
      refine ⟨wfI.1, wfI.2.1, wfI.2.2.1, ?_⟩
      intro pa hpa
      simp only at hpa
      rcases List.mem_append.mp hpa with h2 | h2
      · exact wfI.2.2.2 pa h2
      · rcases List.mem_singleton.mp h2 with rfl
        exact aidLt
    · -- association names gain exactly [n]
      have hids : assocIds
          { dbI with paper_authors := dbI.paper_authors ++ [(fid, aid)] } fid =
          assocIds dbI fid ++ [aid] := by
        rw [assocIds, assocIds]
        simp only [List.filter_append]
        rw [List.map_append]
        congr 1
        simp
      rw [assocNames, hids]
      have hnameeq : nameOf
          { dbI with paper_authors := dbI.paper_authors ++ [(fid, aid)] } =
          nameOf dbI := rfl
      rw [hnameeq, List.filterMap_append]
      rw [← assocNames, namesI]
      congr 1
      simp only [List.filterMap_cons, List.filterMap_nil]
      rw [nameSelf]

theorem addAuthors_assocNames (fid : List Char) :
    ∀ (names : List (List Char)) (db : DB), wfAuthors db →
      wfAuthors (addAuthors db fid names) ∧
      assocNames (addAuthors db fid names) fid =
        dedupAcc (assocNames db fid) names
  | [], db, hwf => ⟨hwf, rfl⟩
  | n :: ns, db, hwf => by
    have hstep := authorStep_assocNames db fid n hwf
    have hrec := addAuthors_assocNames fid ns (authorStep fid db n) hstep.1
    have hcons : addAuthors db fid (n :: ns) =
        addAuthors (authorStep fid db n) fid ns := rfl
    have hacc : dedupAcc (assocNames db fid) (n :: ns) =
        dedupAcc (if n ∈ assocNames db fid then assocNames db fid
                  else assocNames db fid ++ [n]) ns := rfl
    rw [hcons, hacc]
    refine ⟨hrec.1, ?_⟩
    rw [hrec.2, hstep.2]
    by_cases hn : n ∈ assocNames db fid
    · rw [if_pos hn, if_pos hn, List.append_nil]
    · rw [if_neg hn, if_neg hn]

theorem upsertOne_assocNames_cleared (db : DB) (p : PaperDict)
    (fid t : List Char) (hwf : wfAuthors db) (n : List Char)
    (ns : List (List Char)) (hpa : p.authors = some (n :: ns)) :
    (assocNames (upsertOne db p fid t) fid).Nodup ∧
    ∀ m, m ∈ assocNames (upsertOne db p fid t) fid ↔ m ∈ n :: ns := by
  rw [upsertOne]
  simp only [hpa]
  set db1 : DB :=
    { db with
        papers :=
          db.papers.filter
            (fun r => ¬(r.id = fid ∨ r.arxiv_id = (mkRow p fid t).arxiv_id)) ++
            [mkRow p fid t] } with hdb1
  set db2 : DB :=
    { db1 with paper_authors := db1.paper_authors.filter (fun pa => pa.1 ≠ fid) }
    with hdb2
  have hwf2 : wfAuthors db2 := by
    refine ⟨hwf.1, hwf.2.1, hwf.2.2.1, ?_⟩
    intro pa hpa2
    have : pa ∈ db.paper_authors := by
      have := List.mem_filter.mp hpa2
      exact this.1
    exact hwf.2.2.2 pa this
  have hclear : assocNames db2 fid = [] := by
    rw [assocNames, assocIds]
    have : db2.paper_authors.filter (fun pa => pa.1 = fid) = [] := by
      rw [List.filter_eq_nil_iff]
      intro pa hpa2
      have h2 := (List.mem_filter.mp hpa2).2
      simp only [decide_eq_true_eq] at h2 ⊢
      intro he
      exact absurd he h2
    rw [this]
    rfl
  have h := addAuthors_assocNames fid (n :: ns) db2 hwf2
  rw [hclear] at h
  refine ⟨h.2 ▸ nodup_dedupAcc (n :: ns) [] List.nodup_nil, fun m => ?_⟩
  rw [h.2, mem_dedupAcc]
  simp

/-- C5 (amended): re-ingesting a paper whose incoming author list is
NON-EMPTY clears and rebuilds its associations — afterwards there is
exactly one association per name of the incoming list (no duplicates,
and membership coincides with the incoming list); but when the
incoming author list is EMPTY or the key is absent, the prior
associations are left untouched (the claim's "including the empty
list" is refuted by `store_rebuilds_author_assocs_counterexample`). -/
theorem store_rebuilds_author_assocs_amended (db : DB) (p : PaperDict)
    (fid t : List Char) (hwf : wfAuthors db)
    (hid : p.id = some fid) (ht : p.title = some t) :
    storePapers db [p] = Except.ok (upsertOne db p fid t) ∧
    (∀ names, p.authors = some names → names ≠ [] →
      (assocNames (upsertOne db p fid t) fid).Nodup ∧
      ∀ m, m ∈ assocNames (upsertOne db p fid t) fid ↔ m ∈ names) ∧
    ((p.authors = none ∨ p.authors = some []) →
      (upsertOne db p fid t).paper_authors = db.paper_authors) := by
  refine ⟨by rw [storePapers_cons_valid db p [] fid t hid ht]; rfl, ?_, ?_⟩
  · intro names hpa hne
    cases names with
    | nil => exact absurd rfl hne
    | cons n ns => exact upsertOne_assocNames_cleared db p fid t hwf n ns hpa
  · intro hcase
    rw [upsertOne]
    rcases hcase with h | h <;> simp [h]

/-- Witness for the amended C5: re-ingesting `paperA` (author `Alice`)
as `paperA3` (author list `["Bob"]`) leaves exactly the association
`Bob` — `Alice` is cleared; re-ingesting as `paperA2` (empty author
list) leaves the join table unchanged. -/
theorem store_rebuilds_author_assocs_amended_witness :
    ((assocNames
        (upsertOne dbA paperA3 ("http://arxiv.org/abs/1111.0001".data)
          "Paper One v3".data)
        "http://arxiv.org/abs/1111.0001".data).Nodup ∧
      ("Bob".data ∈ assocNames
        (upsertOne dbA paperA3 ("http://arxiv.org/abs/1111.0001".data)
          "Paper One v3".data)
        "http://arxiv.org/abs/1111.0001".data ↔ "Bob".data ∈ ["Bob".data])) ∧
    (upsertOne dbA paperA2 ("http://arxiv.org/abs/1111.0001".data)
        "Paper One v2".data).paper_authors = dbA.paper_authors := by
  constructor
  · have h := store_rebuilds_author_assocs_amended dbA paperA3
      "http://arxiv.org/abs/1111.0001".data ("Paper One v3".data)
      (by unfold wfAuthors; decide) (by decide) (by decide)
    have h2 := h.2.1 ["Bob".data] rfl (by decide)
    exact ⟨h2.1, h2.2 ("Bob".data)⟩
  · have h := store_rebuilds_author_assocs_amended dbA paperA2
      "http://arxiv.org/abs/1111.0001".data ("Paper One v2".data)
      (by unfold wfAuthors; decide) (by decide) (by decide)
    exact h.2.2 (Or.inr rfl)

/-- Counterexample to C5 as stated: `dbA2` is `dbA` after re-ingesting
the same paper with the EMPTY author list; the claim demands the
associations be rebuilt to none, but the association to `Alice`
survives because the code skips the clearing step for a falsy
`paper['authors']`. -/
theorem store_rebuilds_author_assocs_counterexample :
    paperA2.authors = some [] ∧
    assocNames dbA2 ("http://arxiv.org/abs/1111.0001".data) = ["Alice".data] := by
  decide
